import Mathlib

/-!
Verification of the BLT layout trainer (`layout_blt/trainer.py`):
the stochastic masking engine (`BLT_masking`), the deterministic
evaluation masking (`test_masking`), the learning-rate and mask-rate
schedulers, the gradient-health guard of the training loop, the
end-of-epoch checkpoint selection, and the epoch-exhaustion
continuation prompt.

Token sequences are embedded as `List ℤ`, sampled scores (`torch.rand`)
as explicit `List ℚ` inputs, losses as `ℚ`, and the learning-rate
multiplier (which uses `math.cos`) over `ℝ`.  Fallible tensor
operations (`gather` with an out-of-range index) return `Option`.
-/

namespace BLTTrainer

/-! ## MaskingEngine: `BLT_masking` (trainer.py, lines 272-314)

The torch operations act row-wise (all reductions/sorts are along the
last dimension), so the engine is embedded per sequence; the batch
version maps the row function over the rows of the batch and the rows
of the score tensor. -/

/-- `should_mask = (inputs != pad_token) & (inputs != eos_token)`, per token. -/
def maskableB (pad_token eos_token t : ℤ) : Bool :=
  decide (t ≠ pad_token) && decide (t ≠ eos_token)

/-- `lens = torch.sum(should_mask, axis=-1)` for one row. -/
def BLT_lens (pad_token eos_token : ℤ) (inputs : List ℤ) : ℕ :=
  inputs.countP (maskableB pad_token eos_token)

/-- `mask_lens = torch.ceil(lens * mask_rate).to(torch.int64)` for one row. -/
def BLT_mask_lens (pad_token eos_token : ℤ) (mask_rate : ℚ) (inputs : List ℤ) : ℤ :=
  ⌈(BLT_lens pad_token eos_token inputs : ℚ) * mask_rate⌉

/-- The score row after `rand[~should_mask] = 2.0`: non-maskable positions get
the sentinel score `2.0`. -/
def BLT_rand2 (pad_token eos_token : ℤ) (inputs : List ℤ) (rand : List ℚ) : List ℚ :=
  List.zipWith (fun t r => if maskableB pad_token eos_token t then r else 2) inputs rand

/-- `inserted_rand = torch.cat((rand, -ones), dim=1)`: one extra `-1` score is
appended so that the later `gather` cannot fall outside the sorted row. -/
def BLT_inserted (pad_token eos_token : ℤ) (inputs : List ℤ) (rand : List ℚ) : List ℚ :=
  BLT_rand2 pad_token eos_token inputs rand ++ [-1]

/-- `sorted_rand, _ = torch.sort(inserted_rand, dim=-1)` (ascending). -/
def BLT_sorted (pad_token eos_token : ℤ) (inputs : List ℤ) (rand : List ℚ) : List ℚ :=
  (BLT_inserted pad_token eos_token inputs rand).insertionSort (· ≤ ·)

/-- `cut_off = sorted_rand.gather(-1, mask_lens.unsqueeze(1))`.  `gather`
raises when the index lies outside the row, hence the `Option`. -/
def BLT_cut_off_raw (pad_token eos_token : ℤ) (mask_rate : ℚ)
    (inputs : List ℤ) (rand : List ℚ) : Option ℚ :=
  let k := BLT_mask_lens pad_token eos_token mask_rate inputs
  if 0 ≤ k then (BLT_sorted pad_token eos_token inputs rand).get? k.toNat else none

/-- One row of `BLT_masking` (trainer.py, lines 272-314): the masked row and
the mask indicator.  `rand` is the row of `torch.rand(inputs.shape)` scores.
After the cutoff lookup the code clamps a sentinel cutoff
(`cut_off[cut_off == 2.0] = 1.0`), re-intersects
`should_mask &= (rand <= cut_off)` (against the mutated score row) and
substitutes `masked_inputs = torch.where(should_mask, mask_token, inputs)`. -/
def BLT_masking_row (inputs : List ℤ) (mask_token eos_token pad_token : ℤ)
    (mask_rate : ℚ) (rand : List ℚ) : Option (List ℤ × List Bool) :=
  match BLT_cut_off_raw pad_token eos_token mask_rate inputs rand with
  | none => none
  | some c0 =>
    let c := if c0 = 2 then 1 else c0
    let w := List.zipWith
      (fun t r => maskableB pad_token eos_token t && decide (r ≤ c))
      inputs (BLT_rand2 pad_token eos_token inputs rand)
    some (List.zipWith (fun b t => if b then mask_token else t) w inputs, w)

/-- Whole-batch `BLT_masking`: each row is processed independently with its
own row of scores. -/
def BLT_masking (inputs : List (List ℤ)) (mask_token eos_token pad_token : ℤ)
    (mask_rate : ℚ) (rand : List (List ℚ)) :
    Option (List (List ℤ) × List (List Bool)) :=
  ((List.zipWith (fun row r => BLT_masking_row row mask_token eos_token pad_token mask_rate r)
      inputs rand).mapM (fun x => x)).map
    (fun rows => (rows.map Prod.fst, rows.map Prod.snd))

/-! ## MaskingEngine: `test_masking` (trainer.py, lines 317-343) -/

/-- `eos_index = (seq == eos_token).nonzero(as_tuple=True)[0].item()
if eos_token in seq else len(seq)`.  The `[0]` selects the whole index
tensor of the only dimension, and `.item()` raises a `RuntimeError` unless
that tensor holds exactly one element — i.e. unless the row contains
exactly one `eos_token` occurrence, in which case the value is the index of
that occurrence (= `List.indexOf`).  A row without `eos_token` takes the
`len(seq)` branch. -/
def test_masking_eos_index (eos_token : ℤ) (seq : List ℤ) : Option ℕ :=
  if eos_token ∈ seq then
    if seq.count eos_token = 1 then some (List.indexOf eos_token seq) else none
  else some seq.length

/-- One row of `test_masking` for row index `i`; `none` embeds the
`RuntimeError` that `.item()` raises on a row with two or more `eos_token`
occurrences.  The row of `masked_inputs` starts as all `pad_token`, receives
`seq[:seq_len+1]`, and then `mask_token` at the selected indices; the
indicator starts as all `False` and becomes `True` at the selected indices.
The two parity branches of the source are kept verbatim (they are
syntactically identical). -/
def test_masking_row (mask_token eos_token pad_token : ℤ) (max_len : ℕ)
    (i : ℕ) (seq : List ℤ) : Option (List ℤ × List Bool) :=
  match test_masking_eos_index eos_token seq with
  | none => none
  | some seq_len =>
    let pattern : ℕ → Bool := fun j => decide (j < seq_len) && (decide (j % 7 = 1) || decide (j % 7 = 2))
    let mi : ℕ → Bool := if i % 2 = 0 then pattern else pattern
    let base : ℕ → ℤ := fun j => if j < seq_len + 1 then seq.getD j pad_token else pad_token
    some ((List.range max_len).map (fun j => if mi j then mask_token else base j),
          (List.range max_len).map mi)

/-- `test_masking` over a batch (`for i, seq in enumerate(inputs)`): the
loop raises (returns `none`) as soon as any row does.
`max_len = max(len(s) for s in inputs)`; Python's `max` raises on an empty
batch, a case outside every property below, and is embedded as `0`. -/
def test_masking (inputs : List (List ℤ)) (mask_token eos_token pad_token : ℤ) :
    Option (List (List ℤ) × List (List Bool)) :=
  let max_len := (inputs.map List.length).foldr Nat.max 0
  (((inputs.enum.map (fun p => test_masking_row mask_token eos_token pad_token max_len p.1 p.2)).mapM
      (fun x => x)).map
    (fun rows => (rows.map Prod.fst, rows.map Prod.snd)))

/-- A row shaped as the data model describes: ordinary tokens (neither pad
nor eos) strictly before the first `eos_token` occurrence, `pad_token`
strictly after it. -/
def wellFormedRow (eos_token pad_token : ℤ) (seq : List ℤ) : Prop :=
  ∀ j : ℕ, j < seq.length →
    (j < List.indexOf eos_token seq →
      seq.getD j 0 ≠ pad_token ∧ seq.getD j 0 ≠ eos_token) ∧
    (List.indexOf eos_token seq < j → seq.getD j 0 = pad_token)

instance (eos_token pad_token : ℤ) (seq : List ℤ) :
    Decidable (wellFormedRow eos_token pad_token seq) := by
  unfold wellFormedRow
  infer_instance

/-! ## RateSchedulers -/

/-- The fields of `TrainerConfig` used by the scheduling and loop-control
properties, with the defaults of the source class. -/
structure TrainerConfig where
  max_epochs : ℕ := 10
  warmup_iters : ℕ := 5000
  final_iters : ℕ := 25000
  start_mask_rate : ℚ := 0.15
  end_mask_rate : ℚ := 0.7

/-- Evaluation-split mask rate (trainer.py, lines 119-122):
`mask_rate = 0.15 + (0.7-0.15) * min(it/pbar.total, 1)`.  The configuration
is in scope (`self.config`) but the branch uses the literals `0.15` and
`0.7`, not `cfg.start_mask_rate` / `cfg.end_mask_rate`. -/
def eval_mask_rate (_cfg : TrainerConfig) (it total : ℕ) : ℚ :=
  0.15 + (0.7 - 0.15) * min ((it : ℚ) / (total : ℚ)) 1

/-- Training-split mask rate (trainer.py, lines 113-118), as a function of
the fresh uniform draw `u = random.random()`. -/
def train_mask_rate (cfg : TrainerConfig) (u : ℚ) : ℚ :=
  cfg.start_mask_rate + (cfg.end_mask_rate - cfg.start_mask_rate) * u

/-- Learning-rate multiplier (trainer.py, lines 153-164), as a function of
the iteration counter after the optimizer step. -/
noncomputable def lr_mult (warmup_iters final_iters iters : ℕ) : ℝ :=
  if iters < warmup_iters then
    (iters : ℝ) / ((max 1 warmup_iters : ℕ) : ℝ)
  else
    -- progress = min(1, float(iters - warmup_iters) / float(max(1, final_iters - warmup_iters)))
    max 0.1 (0.5 * (1 + Real.cos (Real.pi *
      min 1 ((((iters : ℤ) - (warmup_iters : ℤ) : ℤ) : ℝ) /
        (((max 1 ((final_iters : ℤ) - (warmup_iters : ℤ)) : ℤ) : ℝ))))))

/-- The spec's wording of the multiplier, with `progress` written as
`clamp((iteration − warmup_iters) / max(1, final_iters − warmup_iters), 0, 1)`
over the reals. -/
noncomputable def lr_mult_spec (warmup_iters final_iters iters : ℕ) : ℝ :=
  if iters < warmup_iters then
    (iters : ℝ) / max 1 (warmup_iters : ℝ)
  else
    max 0.1 (0.5 * (1 + Real.cos (Real.pi *
      max 0 (min 1 (((iters : ℝ) - (warmup_iters : ℝ)) /
        max 1 ((final_iters : ℝ) - (warmup_iters : ℝ)))))))

/-! ## TrainingLoop: gradient-health guard (trainer.py, lines 138-151)

One training pass is driven by the list of its batches; for each batch the
only datum the control flow depends on is whether
`check_for_nan_gradients` reports a NaN after backprop and clipping, so a
batch is embedded as that boolean.  The result records the final iteration
counter, the number of optimizer steps applied, and whether the pass was
aborted by the guard (the early `return`). -/

structure EpochResult where
  iters : ℕ
  steps : ℕ
  aborted : Bool
  deriving DecidableEq

/-- The training pass of `run_epoch_` restricted to its control flow:
per batch, either the NaN guard fires (`return`, no `optimizer.step()`,
no `self.iters += 1`) or the step is applied and the counter incremented. -/
def run_epoch_train (iters0 : ℕ) : List Bool → EpochResult
  | [] => ⟨iters0, 0, false⟩
  | nan :: rest =>
    if nan then ⟨iters0, 0, true⟩
    else
      let r := run_epoch_train (iters0 + 1) rest
      ⟨r.iters, r.steps + 1, r.aborted⟩

/-! ## TrainingLoop: end of epoch (trainer.py, lines 231-250)

`epoch_end` embeds the tail of one `while` iteration of `Trainer.train`:
the unconditional epoch-tagged checkpoint, the `good_model` test and the
best-checkpoint overwrite.  The local `test_loss` is only assigned when a
test set is configured, so it is embedded as `Option ℚ` with `none` for
"never assigned"; reading an unassigned local raises, which the embedding
returns as `Except.error`.  `save_checkpoint(epoch)` joins `ckpt_dir` with
the file name and raises a `TypeError` when `ckpt_dir` is `None`. -/

structure EpochEndResult where
  best_loss : ℚ
  saved_epoch_ckpt : Bool
  saved_best_ckpt : Bool
  deriving DecidableEq

def epoch_end (ckpt_dir_set : Bool) (has_test_set : Bool)
    (test_loss : Option ℚ) (best_loss : ℚ) : Except String EpochEndResult :=
  if ¬ ckpt_dir_set then .error "TypeError"   -- os.path.join(None, ...)
  else
    let good_model :=
      if ¬ has_test_set then true
      else match test_loss with
        | none => false     -- unreachable when a test set is configured
        | some l => decide (l < best_loss)
    if ckpt_dir_set ∧ good_model then
      match test_loss with
      | none => .error "UnboundLocalError"   -- best_loss = test_loss, unassigned
      | some l => .ok ⟨l, true, true⟩
    else .ok ⟨best_loss, true, false⟩

/-! ## TrainingLoop: epoch-exhaustion continuation (trainer.py, lines 235-269)

`train_loop epoch max_epochs inputs` runs the `while True` loop from its
top with `epoch` epochs already finished.  Each iteration increments the
epoch counter and runs one epoch; when the counter has reached
`max_epochs` the loop reads one operator line, embedded as
`Option ℤ` (`none` for input that `int()` rejects).  It returns the number
of epochs executed and whether the loop terminated (`false` when the
modeled input list is exhausted while the loop is still live). -/

def train_loop : ℕ → ℕ → List (Option ℤ) → ℕ × Bool
  | _, _, [] => (0, false)
  | epoch, max_epochs, i :: rest =>
    -- the next prompt happens after epoch counter `Nat.max max_epochs (epoch+1)`
    let e := Nat.max max_epochs (epoch + 1)
    match i with
    | none => (e - epoch, true)                    -- ValueError: break
    | some n =>
      if 0 < n then
        -- max_epochs += n; continue
        let r := train_loop e (max_epochs + n.toNat) rest
        (e - epoch + r.1, r.2)
      else
        -- "Please enter a positive number." — falls through, loop continues
        let r := train_loop e max_epochs rest
        (e - epoch + r.1, r.2)

/-! ## Global random-state handling of `BLT_masking` (lines 291-293, 312-313)

The torch default generator is embedded as the seed it was last seeded
with plus the number of values drawn since.  `torch.initial_seed()`
reads the seed (not the full state), `torch.manual_seed` resets the
generator for the given seed, and drawing `n` values advances the
stream. -/

structure TorchRNG where
  seed : ℕ
  offset : ℕ
  deriving DecidableEq

def torch_initial_seed (g : TorchRNG) : ℕ := g.seed

def torch_manual_seed (s : ℕ) (_g : TorchRNG) : TorchRNG := ⟨s, 0⟩

def torch_rand_advance (n : ℕ) (g : TorchRNG) : TorchRNG := ⟨g.seed, g.offset + n⟩

/-- Effect of one `BLT_masking` call on the global generator: in training
mode the draw simply advances the stream; otherwise the seed is read,
the generator is reseeded with `0`, the draw happens, and the generator is
reseeded with the saved seed. -/
def BLT_masking_rng (training : Bool) (n : ℕ) (g : TorchRNG) : TorchRNG :=
  if training then torch_rand_advance n g
  else
    let original_seed := torch_initial_seed g
    torch_manual_seed original_seed (torch_rand_advance n (torch_manual_seed 0 g))

/-! ## List lemmas used by the masking proofs -/

theorem getD_zipWith {α β γ : Type} (f : α → β → γ) (da : α) (db : β) (d : γ) :
    ∀ (as : List α) (bs : List β) (j : ℕ), j < as.length → j < bs.length →
      (List.zipWith f as bs).getD j d = f (as.getD j da) (bs.getD j db) := by
  intro as
  induction as with
  | nil => intro bs j h1 h2; simp at h1
  | cons a as ih =>
    intro bs j h1 h2
    cases bs with
    | nil => simp at h2
    | cons b bs =>
      cases j with
      | zero => simp
      | succ j =>
        simp only [List.zipWith_cons_cons, List.getD_cons_succ]
        exact ih bs j (by simpa using h1) (by simpa using h2)

theorem mem_zipWith {α β γ : Type} {f : α → β → γ} :
    ∀ {as : List α} {bs : List β} {x : γ}, x ∈ List.zipWith f as bs →
      ∃ a, a ∈ as ∧ ∃ b, b ∈ bs ∧ x = f a b := by
  intro as
  induction as with
  | nil => intro bs x h; simp at h
  | cons a as ih =>
    intro bs x h
    cases bs with
    | nil => simp at h
    | cons b bs =>
      rw [List.zipWith_cons_cons] at h
      rcases List.mem_cons.mp h with rfl | h2
      · exact ⟨a, List.mem_cons_self a as, b, List.mem_cons_self b bs, rfl⟩
      · rcases ih h2 with ⟨a2, ha, b2, hb, hx⟩
        exact ⟨a2, List.mem_cons_of_mem a ha, b2, List.mem_cons_of_mem b hb, hx⟩

/-- In a `≤`-sorted list, if a downward-closed predicate holds at index `k`
then it holds at the `k+1` first entries, so the count is at least `k+1`. -/
theorem countP_ge_of_sorted (p : ℚ → Bool)
    (hp : ∀ x y : ℚ, x ≤ y → p y = true → p x = true) :
    ∀ (s : List ℚ), s.Sorted (· ≤ ·) → ∀ (k : ℕ) (h : k < s.length),
      p (s.get ⟨k, h⟩) = true → k + 1 ≤ s.countP p := by
  intro s
  induction s with
  | nil => intro _ k h; simp at h
  | cons a t ih =>
    intro hs k h hpk
    rw [List.countP_cons]
    cases k with
    | zero =>
      have hpa : p a = true := hpk
      simp [hpa]
    | succ k =>
      have hk : k < t.length := by simpa using h
      have hpt : p (t.get ⟨k, hk⟩) = true := by
        simpa [List.get_cons_succ] using hpk
      have hpa : p a = true :=
        hp a _ (List.rel_of_sorted_cons hs _ (List.get_mem t k hk)) hpt
      have hrec := ih hs.of_cons k hk hpt
      simp only [hpa, if_pos]
      omega

/-- In a `≤`-sorted list, if a downward-closed predicate fails at index `k`
then it fails from index `k` on, so the count is at most `k`. -/
theorem countP_le_of_sorted (p : ℚ → Bool)
    (hp : ∀ x y : ℚ, x ≤ y → p y = true → p x = true) :
    ∀ (s : List ℚ), s.Sorted (· ≤ ·) → ∀ (k : ℕ) (h : k < s.length),
      p (s.get ⟨k, h⟩) = false → s.countP p ≤ k := by
  intro s
  induction s with
  | nil => intro _ k h; simp at h
  | cons a t ih =>
    intro hs k h hpk
    rw [List.countP_cons]
    cases k with
    | zero =>
      have hpa : p a = false := hpk
      have ht : t.countP p = 0 := List.countP_eq_zero.mpr (fun x hx hpx => by
        have : p a = true := hp a x (List.rel_of_sorted_cons hs x hx) hpx
        rw [hpa] at this
        exact Bool.false_ne_true this)
      simp [hpa, ht]
    | succ k =>
      have hk : k < t.length := by simpa using h
      have hpt : p (t.get ⟨k, hk⟩) = false := by
        simpa [List.get_cons_succ] using hpk
      have hrec := ih hs.of_cons k hk hpt
      split <;> omega

theorem two_le_count_of_get_eq :
    ∀ (s : List ℚ) (k : ℕ) (h1 : k < s.length) (h2 : k + 1 < s.length),
      s.get ⟨k, h1⟩ = s.get ⟨k + 1, h2⟩ → 2 ≤ s.count (s.get ⟨k, h1⟩) := by
  intro s
  induction s with
  | nil => intro k h1 _ _; simp at h1
  | cons a t ih =>
    intro k h1 h2 heq
    cases k with
    | zero =>
      have h0 : (0 : ℕ) < t.length := by simpa using h2
      have ha : a = t.get ⟨0, h0⟩ := by simpa [List.get_cons_succ] using heq
      have hmem : a ∈ t := by
        rw [ha]; exact List.get_mem t 0 h0
      have hpos : 0 < t.count a := List.count_pos_iff.mpr hmem
      have hgz : (a :: t).get ⟨0, h1⟩ = a := rfl
      rw [hgz, List.count_cons, if_pos (beq_self_eq_true a)]
      omega
    | succ k =>
      have hk1 : k < t.length := by simpa using h1
      have hk2 : k + 1 < t.length := by simpa using h2
      have heq2 : t.get ⟨k, hk1⟩ = t.get ⟨k + 1, hk2⟩ := by
        simpa [List.get_cons_succ] using heq
      have hrec := ih k hk1 hk2 heq2
      have hgs : (a :: t).get ⟨k + 1, h1⟩ = t.get ⟨k, hk1⟩ := List.get_cons_succ
      rw [hgs, List.count_cons]
      split <;> omega

/-! ## Facts about the score row `BLT_rand2` -/

theorem length_BLT_rand2 (pad_token eos_token : ℤ) (inputs : List ℤ) (rand : List ℚ)
    (hlen : rand.length = inputs.length) :
    (BLT_rand2 pad_token eos_token inputs rand).length = inputs.length := by
  simp [BLT_rand2, List.length_zipWith, hlen]

theorem mem_BLT_rand2 {pad_token eos_token : ℤ} {inputs : List ℤ} {rand : List ℚ} {x : ℚ}
    (hx : x ∈ BLT_rand2 pad_token eos_token inputs rand) : x = 2 ∨ x ∈ rand := by
  rcases mem_zipWith hx with ⟨t, _, r, hr, rfl⟩
  by_cases h : maskableB pad_token eos_token t = true
  · rw [if_pos h]; exact Or.inr hr
  · rw [if_neg h]; exact Or.inl rfl

theorem countP_BLT_rand2_lt_two (pad_token eos_token : ℤ) :
    ∀ (inputs : List ℤ) (rand : List ℚ), rand.length = inputs.length →
      (∀ r ∈ rand, r < 2) →
      (BLT_rand2 pad_token eos_token inputs rand).countP (fun r => decide (r < 2)) =
        BLT_lens pad_token eos_token inputs := by
  intro inputs
  induction inputs with
  | nil => intro rand _ _; simp [BLT_rand2, BLT_lens]
  | cons t ts ih =>
    intro rand hlen hr
    cases rand with
    | nil => simp at hlen
    | cons r rs =>
      have hlen2 : rs.length = ts.length := by simpa using hlen
      have hr2 : ∀ x ∈ rs, x < 2 := fun x hx => hr x (List.mem_cons_of_mem r hx)
      have hrr : r < 2 := hr r (List.mem_cons_self r rs)
      have hrec := ih rs hlen2 hr2
      simp only [BLT_rand2, List.zipWith_cons_cons, List.countP_cons, BLT_lens] at hrec ⊢
      by_cases h : maskableB pad_token eos_token t = true
      · rw [if_pos h]
        simp [hrec, hrr, h]
      · rw [if_neg h]
        simp [hrec, h]

theorem count_BLT_rand2_le (pad_token eos_token : ℤ) (c : ℚ) (hc : c ≠ 2) :
    ∀ (inputs : List ℤ) (rand : List ℚ),
      (BLT_rand2 pad_token eos_token inputs rand).count c ≤ rand.count c := by
  intro inputs
  induction inputs with
  | nil => intro rand; simp [BLT_rand2]
  | cons t ts ih =>
    intro rand
    cases rand with
    | nil => simp [BLT_rand2]
    | cons r rs =>
      have hrec := ih rs
      simp only [BLT_rand2, List.zipWith_cons_cons, List.count_cons] at hrec ⊢
      by_cases h : maskableB pad_token eos_token t = true
      · rw [if_pos h]
        split <;> omega
      · rw [if_neg h]
        have h2 : ¬ ((2 : ℚ) == c) = true := by
          simp only [beq_iff_eq]
          exact fun he => hc he.symm
        rw [if_neg h2]
        split <;> omega

/-! ## Facts about the sorted score row and the cutoff -/

theorem BLT_mask_lens_nonneg (pad_token eos_token : ℤ) (rate : ℚ) (inputs : List ℤ)
    (hr0 : 0 ≤ rate) : 0 ≤ BLT_mask_lens pad_token eos_token rate inputs :=
  Int.ceil_nonneg (mul_nonneg (Nat.cast_nonneg _) hr0)

theorem BLT_mask_lens_le_lens (pad_token eos_token : ℤ) (rate : ℚ) (inputs : List ℤ)
    (hr1 : rate ≤ 1) :
    BLT_mask_lens pad_token eos_token rate inputs ≤ (BLT_lens pad_token eos_token inputs : ℤ) := by
  unfold BLT_mask_lens
  rw [Int.ceil_le]
  push_cast
  exact mul_le_of_le_one_right (Nat.cast_nonneg _) hr1

theorem BLT_sorted_sorted (pad_token eos_token : ℤ) (inputs : List ℤ) (rand : List ℚ) :
    (BLT_sorted pad_token eos_token inputs rand).Sorted (· ≤ ·) :=
  List.sorted_insertionSort _ _

theorem BLT_sorted_perm (pad_token eos_token : ℤ) (inputs : List ℤ) (rand : List ℚ) :
    (BLT_sorted pad_token eos_token inputs rand).Perm
      (BLT_inserted pad_token eos_token inputs rand) :=
  List.perm_insertionSort _ _

theorem BLT_sorted_length (pad_token eos_token : ℤ) (inputs : List ℤ) (rand : List ℚ)
    (hlen : rand.length = inputs.length) :
    (BLT_sorted pad_token eos_token inputs rand).length = inputs.length + 1 := by
  simp [BLT_sorted, BLT_inserted, List.length_insertionSort, List.length_append,
    length_BLT_rand2 pad_token eos_token inputs rand hlen]

theorem BLT_k_toNat_lt (pad_token eos_token : ℤ) (rate : ℚ) (inputs : List ℤ) (rand : List ℚ)
    (hr1 : rate ≤ 1) (hlen : rand.length = inputs.length) :
    (BLT_mask_lens pad_token eos_token rate inputs).toNat <
      (BLT_sorted pad_token eos_token inputs rand).length := by
  have h1 : (BLT_mask_lens pad_token eos_token rate inputs).toNat ≤ BLT_lens pad_token eos_token inputs :=
    Int.toNat_le.mpr (BLT_mask_lens_le_lens pad_token eos_token rate inputs hr1)
  have h2 : BLT_lens pad_token eos_token inputs ≤ inputs.length := List.countP_le_length _
  rw [BLT_sorted_length pad_token eos_token inputs rand hlen]
  omega

theorem BLT_cut_off_raw_eq (pad_token eos_token : ℤ) (rate : ℚ) (inputs : List ℤ) (rand : List ℚ)
    (hr0 : 0 ≤ rate)
    (h : (BLT_mask_lens pad_token eos_token rate inputs).toNat <
      (BLT_sorted pad_token eos_token inputs rand).length) :
    BLT_cut_off_raw pad_token eos_token rate inputs rand =
      some ((BLT_sorted pad_token eos_token inputs rand).get
        ⟨(BLT_mask_lens pad_token eos_token rate inputs).toNat, h⟩) := by
  unfold BLT_cut_off_raw
  rw [if_pos (BLT_mask_lens_nonneg pad_token eos_token rate inputs hr0)]
  exact List.get?_eq_get h

/-- The sorted row holds exactly `lens + 1` entries strictly below the
sentinel `2.0`: the `lens` retained scores and the appended `-1`. -/
theorem BLT_sorted_countP_lt_two (pad_token eos_token : ℤ) (inputs : List ℤ) (rand : List ℚ)
    (hlen : rand.length = inputs.length) (hhi : ∀ r ∈ rand, r < 2) :
    (BLT_sorted pad_token eos_token inputs rand).countP (fun r => decide (r < 2)) =
      BLT_lens pad_token eos_token inputs + 1 := by
  rw [(BLT_sorted_perm pad_token eos_token inputs rand).countP_eq]
  unfold BLT_inserted
  rw [List.countP_append, countP_BLT_rand2_lt_two pad_token eos_token inputs rand hlen hhi]
  norm_num

theorem neg_one_le_BLT_sorted (pad_token eos_token : ℤ) (inputs : List ℤ) (rand : List ℚ)
    (hlo : ∀ r ∈ rand, 0 ≤ r) {x : ℚ}
    (hx : x ∈ BLT_sorted pad_token eos_token inputs rand) : -1 ≤ x := by
  have hx2 : x ∈ BLT_inserted pad_token eos_token inputs rand :=
    ((BLT_sorted_perm pad_token eos_token inputs rand).mem_iff).mp hx
  rcases List.mem_append.mp hx2 with hx3 | hx3
  · rcases mem_BLT_rand2 hx3 with rfl | hx4
    · norm_num
    · have := hlo x hx4
      linarith
  · have : x = -1 := by simpa using hx3
    rw [this]

/-- Downward closure of `r ≤ c` used with the sorted-count lemmas. -/
theorem dc_le (c : ℚ) : ∀ x y : ℚ, x ≤ y → decide (y ≤ c) = true → decide (x ≤ c) = true := by
  intro x y hxy hy
  simp only [decide_eq_true_eq] at hy ⊢
  linarith

/-- Downward closure of `r < 2`. -/
theorem dc_lt_two : ∀ x y : ℚ, x ≤ y → decide (y < 2) = true → decide (x < 2) = true := by
  intro x y hxy hy
  simp only [decide_eq_true_eq] at hy ⊢
  linarith

/-- Under a mask rate in `(0, 1]` and scores below the sentinel, the gathered
cutoff is strictly below `2.0`: the sentinel clamp is unreachable. -/
theorem BLT_cutoff_lt_two (pad_token eos_token : ℤ) (rate : ℚ) (inputs : List ℤ) (rand : List ℚ)
    (hr1 : rate ≤ 1) (hlen : rand.length = inputs.length) (hhi : ∀ r ∈ rand, r < 2)
    (h : (BLT_mask_lens pad_token eos_token rate inputs).toNat <
      (BLT_sorted pad_token eos_token inputs rand).length) :
    (BLT_sorted pad_token eos_token inputs rand).get
      ⟨(BLT_mask_lens pad_token eos_token rate inputs).toNat, h⟩ < 2 := by
  by_contra hcon
  push_neg at hcon
  have hfalse : (fun r => decide (r < 2))
      ((BLT_sorted pad_token eos_token inputs rand).get
        ⟨(BLT_mask_lens pad_token eos_token rate inputs).toNat, h⟩) = false := by
    simp only [decide_eq_false_iff_not, not_lt]
    exact hcon
  have hle := countP_le_of_sorted _ dc_lt_two _
    (BLT_sorted_sorted pad_token eos_token inputs rand) _ h hfalse
  rw [BLT_sorted_countP_lt_two pad_token eos_token inputs rand hlen hhi] at hle
  have hk : (BLT_mask_lens pad_token eos_token rate inputs).toNat ≤
      BLT_lens pad_token eos_token inputs :=
    Int.toNat_le.mpr (BLT_mask_lens_le_lens pad_token eos_token rate inputs hr1)
  omega

/-- With pairwise-distinct scores in `[0, 1)`, exactly `mask_lens + 1`
entries of the sorted row (the `-1` plus the `mask_lens` smallest scores)
are at most the gathered cutoff. -/
theorem BLT_sorted_countP_cutoff (pad_token eos_token : ℤ) (rate : ℚ)
    (inputs : List ℤ) (rand : List ℚ)
    (hr1 : rate ≤ 1) (hlen : rand.length = inputs.length)
    (hlo : ∀ r ∈ rand, 0 ≤ r) (hhi : ∀ r ∈ rand, r < 2) (hnd : rand.Nodup)
    (h : (BLT_mask_lens pad_token eos_token rate inputs).toNat <
      (BLT_sorted pad_token eos_token inputs rand).length) :
    (BLT_sorted pad_token eos_token inputs rand).countP
      (fun r => decide (r ≤ (BLT_sorted pad_token eos_token inputs rand).get
        ⟨(BLT_mask_lens pad_token eos_token rate inputs).toNat, h⟩)) =
      (BLT_mask_lens pad_token eos_token rate inputs).toNat + 1 := by
  have hsort := BLT_sorted_sorted pad_token eos_token inputs rand
  have hge := countP_ge_of_sorted _
    (dc_le ((BLT_sorted pad_token eos_token inputs rand).get
      ⟨(BLT_mask_lens pad_token eos_token rate inputs).toNat, h⟩)) _ hsort _ h
    (by simp)
  rcases Nat.lt_or_ge ((BLT_mask_lens pad_token eos_token rate inputs).toNat + 1)
      (BLT_sorted pad_token eos_token inputs rand).length with h2 | h2
  · -- the entry after the cutoff index is strictly larger
    have hck : (BLT_sorted pad_token eos_token inputs rand).get
        ⟨(BLT_mask_lens pad_token eos_token rate inputs).toNat, h⟩ ≤
        (BLT_sorted pad_token eos_token inputs rand).get
        ⟨(BLT_mask_lens pad_token eos_token rate inputs).toNat + 1, h2⟩ :=
      List.pairwise_iff_get.mp hsort _ _ (by simp)
    have hne : (BLT_sorted pad_token eos_token inputs rand).get
        ⟨(BLT_mask_lens pad_token eos_token rate inputs).toNat + 1, h2⟩ ≠
        (BLT_sorted pad_token eos_token inputs rand).get
        ⟨(BLT_mask_lens pad_token eos_token rate inputs).toNat, h⟩ := by
      intro heq
      have hcnt := two_le_count_of_get_eq _ _ h h2 heq.symm
      have hc2 : (BLT_sorted pad_token eos_token inputs rand).get
          ⟨(BLT_mask_lens pad_token eos_token rate inputs).toNat, h⟩ < 2 :=
        BLT_cutoff_lt_two pad_token eos_token rate inputs rand hr1 hlen hhi h
      set c := (BLT_sorted pad_token eos_token inputs rand).get
        ⟨(BLT_mask_lens pad_token eos_token rate inputs).toNat, h⟩ with hcdef
      have hcands : List.count c (BLT_sorted pad_token eos_token inputs rand) =
          List.count c (BLT_rand2 pad_token eos_token inputs rand) + List.count c [(-1 : ℚ)] := by
        rw [(BLT_sorted_perm pad_token eos_token inputs rand).count_eq]
        unfold BLT_inserted
        rw [List.count_append]
      by_cases hcneg : c = -1
      · have hz : List.count c (BLT_rand2 pad_token eos_token inputs rand) = 0 := by
          rw [List.count_eq_zero]
          intro hmem
          rcases mem_BLT_rand2 hmem with he | hmemr
          · rw [hcneg] at he; norm_num at he
          · have := hlo c hmemr
            rw [hcneg] at this; norm_num at this
        rw [hcands, hz, hcneg] at hcnt
        simp at hcnt
      · have hz : List.count c [(-1 : ℚ)] = 0 := by
          simp [List.count_singleton]
          intro he
          exact hcneg he.symm
        have hle1 : List.count c (BLT_rand2 pad_token eos_token inputs rand) ≤ 1 := by
          refine le_trans (count_BLT_rand2_le pad_token eos_token c hc2.ne inputs rand) ?_
          exact List.nodup_iff_count_le_one.mp hnd c
        rw [hcands, hz] at hcnt
        omega
    have hfalse : (fun r => decide (r ≤ (BLT_sorted pad_token eos_token inputs rand).get
        ⟨(BLT_mask_lens pad_token eos_token rate inputs).toNat, h⟩))
        ((BLT_sorted pad_token eos_token inputs rand).get
          ⟨(BLT_mask_lens pad_token eos_token rate inputs).toNat + 1, h2⟩) = false := by
      simp only [decide_eq_false_iff_not, not_le]
      exact lt_of_le_of_ne hck (fun he => hne he.symm)
    have hlecnt := countP_le_of_sorted _
      (dc_le ((BLT_sorted pad_token eos_token inputs rand).get
        ⟨(BLT_mask_lens pad_token eos_token rate inputs).toNat, h⟩)) _ hsort _ h2 hfalse
    omega
  · have hlecnt : (BLT_sorted pad_token eos_token inputs rand).countP
        (fun r => decide (r ≤ (BLT_sorted pad_token eos_token inputs rand).get
          ⟨(BLT_mask_lens pad_token eos_token rate inputs).toNat, h⟩)) ≤
        (BLT_mask_lens pad_token eos_token rate inputs).toNat + 1 :=
      le_trans (List.countP_le_length _) h2
    omega

theorem BLT_rand2_cons (pad_token eos_token t : ℤ) (ts : List ℤ) (r : ℚ) (rs : List ℚ) :
    BLT_rand2 pad_token eos_token (t :: ts) (r :: rs) =
      (if maskableB pad_token eos_token t then r else 2) ::
        BLT_rand2 pad_token eos_token ts rs := rfl

/-- The achieved mask indicator counts exactly the retained scores at most
the cutoff, because non-maskable positions carry the sentinel `2.0 > cutoff`. -/
theorem count_w_eq (pad_token eos_token : ℤ) (c : ℚ) (hc : c < 2) :
    ∀ (inputs : List ℤ) (rand : List ℚ),
      (List.zipWith (fun t r => maskableB pad_token eos_token t && decide (r ≤ c)) inputs
        (BLT_rand2 pad_token eos_token inputs rand)).count true =
      (BLT_rand2 pad_token eos_token inputs rand).countP (fun r => decide (r ≤ c)) := by
  intro inputs
  induction inputs with
  | nil => intro rand; simp [BLT_rand2]
  | cons t ts ih =>
    intro rand
    cases rand with
    | nil => simp [BLT_rand2]
    | cons r rs =>
      rw [BLT_rand2_cons]
      by_cases h : maskableB pad_token eos_token t = true
      · rw [if_pos h, List.zipWith_cons_cons, List.count_cons, List.countP_cons]
        simp [h, ih rs]
      · rw [if_neg h, List.zipWith_cons_cons, List.count_cons, List.countP_cons]
        simp [h, ih rs, hc.not_le]

theorem BLT_inserted_countP_le (pad_token eos_token : ℤ) (inputs : List ℤ) (rand : List ℚ)
    (c : ℚ) (hc : -1 ≤ c) :
    (BLT_inserted pad_token eos_token inputs rand).countP (fun r => decide (r ≤ c)) =
      (BLT_rand2 pad_token eos_token inputs rand).countP (fun r => decide (r ≤ c)) + 1 := by
  unfold BLT_inserted
  rw [List.countP_append]
  simp [hc]

/-- Reduction of `BLT_masking_row` once the gathered cutoff is known. -/
theorem BLT_masking_row_eq (inputs : List ℤ) (mask_token eos_token pad_token : ℤ)
    (rate : ℚ) (rand : List ℚ) (c0 : ℚ)
    (hraw : BLT_cut_off_raw pad_token eos_token rate inputs rand = some c0) :
    BLT_masking_row inputs mask_token eos_token pad_token rate rand =
      some (List.zipWith (fun b t => if b then mask_token else t)
              (List.zipWith (fun t r => maskableB pad_token eos_token t &&
                decide (r ≤ (if c0 = 2 then 1 else c0))) inputs
                (BLT_rand2 pad_token eos_token inputs rand))
              inputs,
            List.zipWith (fun t r => maskableB pad_token eos_token t &&
              decide (r ≤ (if c0 = 2 then 1 else c0))) inputs
              (BLT_rand2 pad_token eos_token inputs rand)) := by
  unfold BLT_masking_row
  rw [hraw]

/-! ## Claims about the masking engine -/

/-- C10: under a mask rate in `(0, 1]` and scores in `[0, 1)`, the per-row
target `mask_lens = ceil(lens * rate)` never exceeds the maskable count, the
`gather` index is in bounds (the lookup succeeds), the gathered cutoff is
strictly below the non-maskable sentinel `2.0` (so the `2.0 → 1.0` clamp is
unreachable), and the whole row computation is total. -/
theorem C10_gather_safe (mask_token eos_token pad_token : ℤ) (rate : ℚ)
    (inputs : List ℤ) (rand : List ℚ)
    (hr0 : 0 < rate) (hr1 : rate ≤ 1) (hlen : rand.length = inputs.length)
    (_hlo : ∀ r ∈ rand, 0 ≤ r) (hhi : ∀ r ∈ rand, r < 1) :
    BLT_mask_lens pad_token eos_token rate inputs ≤
      (BLT_lens pad_token eos_token inputs : ℤ) ∧
    (∃ c, BLT_cut_off_raw pad_token eos_token rate inputs rand = some c ∧ c < 2) ∧
    (BLT_masking_row inputs mask_token eos_token pad_token rate rand).isSome = true := by
  have hhi2 : ∀ r ∈ rand, r < 2 := fun r hr => lt_trans (hhi r hr) (by norm_num)
  have hk := BLT_k_toNat_lt pad_token eos_token rate inputs rand hr1 hlen
  have hraw := BLT_cut_off_raw_eq pad_token eos_token rate inputs rand hr0.le hk
  refine ⟨BLT_mask_lens_le_lens pad_token eos_token rate inputs hr1,
    ⟨_, hraw, BLT_cutoff_lt_two pad_token eos_token rate inputs rand hr1 hlen hhi2 hk⟩, ?_⟩
  rw [BLT_masking_row_eq inputs mask_token eos_token pad_token rate rand _ hraw]
  rfl

/-- C10 witness: a concrete in-range row with rate `1/2` is processed
without error. -/
theorem C10_gather_safe_witness :
    (BLT_masking_row [10, 11] 2 1 0 (mkRat 1 2) [mkRat 1 4, mkRat 1 8]).isSome = true :=
  (C10_gather_safe 2 1 0 (mkRat 1 2) [10, 11] [mkRat 1 4, mkRat 1 8] (by decide) (by decide)
    rfl (by decide) (by decide)).2.2

/-- C2 counterexample: a row of four maskable tokens with the four distinct
scores `0.1 < 0.2 < 0.3 < 0.4` and rate `1/2` masks exactly
`ceil(4 * 1/2) = 2` positions — not `ceil(4 * 1/2) + 1 = 3` as the claimed
off-by-one inflation would have it (the appended `-1` shifts the sorted
array by one slot, cancelling the naive off-by-one). -/
theorem C2_counterexample :
    (BLT_masking_row [10, 11, 12, 13] 2 1 0 (mkRat 1 2)
      [mkRat 1 10, mkRat 2 10, mkRat 3 10, mkRat 4 10]).map
      (fun p => p.2.count true) = some 2 ∧
    2 ≠ ⌈(4 : ℚ) * mkRat 1 2⌉.toNat + 1 := by
  have hceil : ⌈(4 : ℚ) * mkRat 1 2⌉ = 2 := by
    norm_num [Rat.mkRat_eq_divInt, Rat.divInt_eq_div]
  constructor
  · have hml : BLT_mask_lens 0 1 (mkRat 1 2) [10, 11, 12, 13] = 2 := by
      have hl : BLT_lens 0 1 [10, 11, 12, 13] = 4 := by decide
      unfold BLT_mask_lens
      rw [hl]
      exact_mod_cast hceil
    have hraw : BLT_cut_off_raw 0 1 (mkRat 1 2) [10, 11, 12, 13]
        [mkRat 1 10, mkRat 2 10, mkRat 3 10, mkRat 4 10] = some (mkRat 2 10) := by
      simp only [BLT_cut_off_raw, hml]
      decide
    rw [BLT_masking_row_eq _ 2 1 0 _ _ _ hraw]
    decide
  · rw [hceil]
    decide

/-- C2 amended: for every row, mask rate in `(0, 1]` and pairwise-distinct
scores in `[0, 1)`, `BLT_masking` masks exactly `ceil(count * mask_rate)`
positions (no off-by-one inflation: the appended `-1` sentinel occupies one
slot of the sorted row, so the cutoff is the `mask_lens`-th smallest
retained score); in particular a row with zero maskable positions masks
zero positions and does not error. -/
theorem C2_mask_count (mask_token eos_token pad_token : ℤ) (rate : ℚ)
    (inputs : List ℤ) (rand : List ℚ)
    (hr0 : 0 < rate) (hr1 : rate ≤ 1) (hlen : rand.length = inputs.length)
    (hlo : ∀ r ∈ rand, 0 ≤ r) (hhi : ∀ r ∈ rand, r < 1) (hnd : rand.Nodup) :
    (BLT_masking_row inputs mask_token eos_token pad_token rate rand).map
      (fun p => p.2.count true) =
      some (BLT_mask_lens pad_token eos_token rate inputs).toNat := by
  have hhi2 : ∀ r ∈ rand, r < 2 := fun r hr => lt_trans (hhi r hr) (by norm_num)
  have hk := BLT_k_toNat_lt pad_token eos_token rate inputs rand hr1 hlen
  have hraw := BLT_cut_off_raw_eq pad_token eos_token rate inputs rand hr0.le hk
  have hc2 := BLT_cutoff_lt_two pad_token eos_token rate inputs rand hr1 hlen hhi2 hk
  have hcm : -1 ≤ (BLT_sorted pad_token eos_token inputs rand).get
      ⟨(BLT_mask_lens pad_token eos_token rate inputs).toNat, hk⟩ :=
    neg_one_le_BLT_sorted pad_token eos_token inputs rand hlo (List.get_mem _ _ _)
  have hcnt := BLT_sorted_countP_cutoff pad_token eos_token rate inputs rand
    hr1 hlen hlo hhi2 hnd hk
  rw [BLT_masking_row_eq inputs mask_token eos_token pad_token rate rand _ hraw,
    Option.map_some']
  rw [if_neg hc2.ne]
  refine congrArg some ?_
  rw [count_w_eq pad_token eos_token _ hc2 inputs rand]
  have hins := BLT_inserted_countP_le pad_token eos_token inputs rand _ hcm
  have hperm := (BLT_sorted_perm pad_token eos_token inputs rand).countP_eq
    (fun r => decide (r ≤ (BLT_sorted pad_token eos_token inputs rand).get
      ⟨(BLT_mask_lens pad_token eos_token rate inputs).toNat, hk⟩))
  omega

/-- C2 witness: a row with two maskable tokens, distinct scores and rate
`1/2` masks exactly `ceil(2 * 1/2) = 1` position, and a row with no
maskable position masks zero positions without error. -/
theorem C2_mask_count_witness :
    (BLT_masking_row [10, 11] 2 1 0 (mkRat 1 2) [mkRat 1 4, mkRat 1 8]).map
      (fun p => p.2.count true) = some 1 ∧
    (BLT_masking_row [0, 1] 2 1 0 (mkRat 1 2) [mkRat 1 4, mkRat 1 8]).map
      (fun p => p.2.count true) = some 0 := by
  constructor
  · rw [C2_mask_count 2 1 0 (mkRat 1 2) [10, 11] [mkRat 1 4, mkRat 1 8]
      (by decide) (by decide) rfl (by decide) (by decide) (by decide)]
    have hml : BLT_mask_lens 0 1 (mkRat 1 2) [10, 11] = 1 := by
      have hl : BLT_lens 0 1 [10, 11] = 2 := by decide
      unfold BLT_mask_lens
      rw [hl]
      norm_num [Rat.mkRat_eq_divInt, Rat.divInt_eq_div]
    rw [hml]
    rfl
  · rw [C2_mask_count 2 1 0 (mkRat 1 2) [0, 1] [mkRat 1 4, mkRat 1 8]
      (by decide) (by decide) rfl (by decide) (by decide) (by decide)]
    have hml : BLT_mask_lens 0 1 (mkRat 1 2) [0, 1] = 0 := by
      have hl : BLT_lens 0 1 [0, 1] = 0 := by decide
      unfold BLT_mask_lens
      rw [hl]
      norm_num
    rw [hml]
    rfl

/-! ## Facts about `test_masking` -/

theorem getD_mem {α : Type} {l : List α} {j : ℕ} (h : j < l.length) (d : α) :
    l.getD j d ∈ l := by
  rw [List.getD_eq_getElem?_getD, List.getElem?_eq_getElem h]
  exact List.getElem_mem h

theorem getD_irrel {α : Type} {l : List α} {j : ℕ} (h : j < l.length) (d d2 : α) :
    l.getD j d = l.getD j d2 := by
  rw [List.getD_eq_getElem?_getD, List.getD_eq_getElem?_getD, List.getElem?_eq_getElem h]
  rfl

theorem foldr_max_uniform :
    ∀ (inputs : List (List ℤ)) (L : ℕ), inputs ≠ [] → (∀ s ∈ inputs, s.length = L) →
      (inputs.map List.length).foldr Nat.max 0 = L := by
  intro inputs
  induction inputs with
  | nil => intro L h; exact absurd rfl h
  | cons x xs ih =>
    intro L _ hL
    have hx : x.length = L := hL x (List.mem_cons_self _ _)
    cases xs with
    | nil =>
      simp only [List.map_cons, List.map_nil, List.foldr_cons, List.foldr_nil, Nat.max_zero]
      exact hx
    | cons y ys =>
      have hr := ih L (by simp) (fun s hs => hL s (List.mem_cons_of_mem x hs))
      simp only [List.map_cons, List.foldr_cons] at hr ⊢
      rw [hx, hr]
      exact Nat.max_self L

theorem getD_enumFrom_map {α β : Type} (f : ℕ × α → β) (d : β) (dd : α) :
    ∀ (l : List α) (n i : ℕ), i < l.length →
      ((List.enumFrom n l).map f).getD i d = f (n + i, l.getD i dd) := by
  intro l
  induction l with
  | nil => intro n i h; simp at h
  | cons a t ih =>
    intro n i h
    cases i with
    | zero => simp
    | succ i =>
      have hef : List.enumFrom n (a :: t) = (n, a) :: List.enumFrom (n + 1) t := rfl
      rw [hef, List.map_cons, List.getD_cons_succ, List.getD_cons_succ,
        ih (n + 1) i (by simpa using h)]
      have harith : n + (i + 1) = n + 1 + i := by omega
      rw [harith]

theorem getD_map {α β : Type} (f : α → β) (d : β) (dd : α) (l : List α) (i : ℕ)
    (h : i < l.length) :
    (l.map f).getD i d = f (l.getD i dd) := by
  rw [List.getD_eq_getElem?_getD, List.getElem?_map, List.getD_eq_getElem?_getD,
    List.getElem?_eq_getElem h]
  rfl

theorem getD_range_map {β : Type} (f : ℕ → β) (d : β) (L j : ℕ) (hj : j < L) :
    ((List.range L).map f).getD j d = f j := by
  rw [List.getD_eq_getElem?_getD, List.getElem?_map, List.getElem?_range hj]
  rfl

theorem snd_mem_of_mem_enumFrom {α : Type} :
    ∀ (l : List α) (n : ℕ) (p : ℕ × α), p ∈ List.enumFrom n l → p.2 ∈ l := by
  intro l
  induction l with
  | nil => intro n p h; simp at h
  | cons a t ih =>
    intro n p h
    have hef : List.enumFrom n (a :: t) = (n, a) :: List.enumFrom (n + 1) t := rfl
    rw [hef] at h
    rcases List.mem_cons.mp h with rfl | h2
    · exact List.mem_cons_self _ _
    · exact List.mem_cons_of_mem _ (ih (n + 1) p h2)

/-- A list of non-`none` options maps (monadically) to some list. -/
theorem mapM_id_some {α : Type} :
    ∀ (l : List (Option α)), (∀ x ∈ l, x ≠ none) →
      ∃ l2, l.mapM (fun x => x) = some l2 := by
  intro l
  induction l with
  | nil => intro _; exact ⟨[], by rw [List.mapM_nil]; rfl⟩
  | cons x xs ih =>
    intro hx
    obtain ⟨a, ha⟩ := Option.ne_none_iff_exists.mp (hx x (List.mem_cons_self _ _))
    obtain ⟨l2, hl2⟩ := ih (fun y hy => hx y (List.mem_cons_of_mem x hy))
    refine ⟨a :: l2, ?_⟩
    rw [List.mapM_cons, ← ha, hl2]
    rfl

/-- A successful monadic sequencing of options recovers each element. -/
theorem mapM_id_eq_some {α : Type} (d : α) :
    ∀ (l : List (Option α)) (l2 : List α), l.mapM (fun x => x) = some l2 →
      l2.length = l.length ∧
      ∀ i, i < l.length → l.getD i none = some (l2.getD i d) := by
  intro l
  induction l with
  | nil =>
    intro l2 h
    rw [List.mapM_nil] at h
    have h2 : l2 = [] := (Option.some.inj h).symm
    subst h2
    exact ⟨rfl, fun i hi => by simp at hi⟩
  | cons x xs ih =>
    intro l2 h
    rw [List.mapM_cons] at h
    cases x with
    | none => simp at h
    | some a =>
      cases hxs : xs.mapM (fun x => x) with
      | none => rw [hxs] at h; simp at h
      | some ys =>
        rw [hxs] at h
        have h2 : a :: ys = l2 := by simpa using h
        subst h2
        obtain ⟨hlen, hget⟩ := ih ys hxs
        refine ⟨by simp [hlen], fun i hi => ?_⟩
        cases i with
        | zero => simp
        | succ i => simpa using hget i (by simpa using hi)

/-- On a row holding at most one `eos_token` the `.item()` lookup succeeds
and yields the first-occurrence index (the full length when absent). -/
theorem test_masking_eos_index_eq (eos_token : ℤ) (seq : List ℤ)
    (h1 : seq.count eos_token ≤ 1) :
    test_masking_eos_index eos_token seq = some (List.indexOf eos_token seq) := by
  unfold test_masking_eos_index
  by_cases hmem : eos_token ∈ seq
  · have hpos : 0 < seq.count eos_token := List.count_pos_iff.mpr hmem
    have hc : seq.count eos_token = 1 := by omega
    rw [if_pos hmem, if_pos hc]
  · rw [if_neg hmem, List.indexOf_eq_length.mpr hmem]

/-- Whenever the `.item()` lookup succeeds at all, its value is the
first-occurrence index. -/
theorem eos_index_eq_indexOf (eos_token : ℤ) (seq : List ℤ) (n : ℕ)
    (hei : test_masking_eos_index eos_token seq = some n) :
    n = List.indexOf eos_token seq := by
  unfold test_masking_eos_index at hei
  by_cases hmem : eos_token ∈ seq
  · rw [if_pos hmem] at hei
    by_cases hc : seq.count eos_token = 1
    · rw [if_pos hc] at hei
      exact (Option.some.inj hei).symm
    · rw [if_neg hc] at hei
      exact absurd hei (by simp)
  · rw [if_neg hmem] at hei
    rw [List.indexOf_eq_length.mpr hmem]
    exact (Option.some.inj hei).symm

/-- Reduction of a `test_masking` row once its `.item()` lookup succeeded:
the row output is the explicit pattern for the looked-up valid length, for
either row parity. -/
theorem test_masking_row_eq (mask_token eos_token pad_token : ℤ) (max_len i : ℕ)
    (seq : List ℤ) (n : ℕ)
    (hei : test_masking_eos_index eos_token seq = some n) :
    test_masking_row mask_token eos_token pad_token max_len i seq =
      some ((List.range max_len).map (fun j =>
              if decide (j < n) && (decide (j % 7 = 1) || decide (j % 7 = 2))
              then mask_token
              else if j < n + 1 then seq.getD j pad_token else pad_token),
            (List.range max_len).map (fun j =>
              decide (j < n) && (decide (j % 7 = 1) || decide (j % 7 = 2)))) := by
  unfold test_masking_row
  rw [hei]
  simp only [ite_self]

theorem test_masking_key (mask_token eos_token pad_token : ℤ) (inputs : List (List ℤ))
    (L : ℕ) (hne : inputs ≠ []) (hL : ∀ s ∈ inputs, s.length = L) :
    test_masking inputs mask_token eos_token pad_token =
      ((inputs.enum.map (fun p =>
          test_masking_row mask_token eos_token pad_token L p.1 p.2)).mapM
        (fun x => x)).map (fun rows => (rows.map Prod.fst, rows.map Prod.snd)) := by
  simp only [test_masking]
  rw [foldr_max_uniform inputs L hne hL]

/-- Row extraction from a successful `test_masking` call on a uniform
batch: row `i` of the outputs is the first-occurrence pattern of row `i`
of the inputs. -/
theorem test_masking_some_getD (mask_token eos_token pad_token : ℤ)
    (inputs : List (List ℤ)) (L i : ℕ) (out : List (List ℤ) × List (List Bool))
    (hL : ∀ s ∈ inputs, s.length = L) (hi : i < inputs.length)
    (hres : test_masking inputs mask_token eos_token pad_token = some out) :
    out.1.getD i [] = (List.range L).map (fun j =>
        if decide (j < List.indexOf eos_token (inputs.getD i [])) &&
            (decide (j % 7 = 1) || decide (j % 7 = 2))
        then mask_token
        else if j < List.indexOf eos_token (inputs.getD i []) + 1
        then (inputs.getD i []).getD j pad_token else pad_token) ∧
    out.2.getD i [] = (List.range L).map (fun j =>
        decide (j < List.indexOf eos_token (inputs.getD i [])) &&
          (decide (j % 7 = 1) || decide (j % 7 = 2))) := by
  have hne : inputs ≠ [] := by intro h; subst h; simp at hi
  rw [test_masking_key mask_token eos_token pad_token inputs L hne hL] at hres
  obtain ⟨l2, hl2, hout⟩ := Option.map_eq_some'.mp hres
  obtain ⟨hlen2, hget2⟩ := mapM_id_eq_some (([] : List ℤ), ([] : List Bool)) _ l2 hl2
  have hrows_len : (inputs.enum.map (fun p =>
      test_masking_row mask_token eos_token pad_token L p.1 p.2)).length = inputs.length := by
    rw [List.length_map, List.enum_length]
  have hrow := hget2 i (by rw [hrows_len]; exact hi)
  have henum : List.enum inputs = List.enumFrom 0 inputs := rfl
  rw [henum, getD_enumFrom_map _ none [] inputs 0 i hi] at hrow
  simp only [Nat.zero_add] at hrow
  cases hei : test_masking_eos_index eos_token (inputs.getD i []) with
  | none =>
    rw [test_masking_row, hei] at hrow
    exact absurd hrow (by simp)
  | some n =>
    have hn := eos_index_eq_indexOf eos_token (inputs.getD i []) n hei
    rw [test_masking_row_eq mask_token eos_token pad_token L i (inputs.getD i []) n hei]
      at hrow
    have hpair := (Option.some.inj hrow).symm
    subst hn
    rw [← hout]
    constructor
    · rw [getD_map Prod.fst [] (([] : List ℤ), ([] : List Bool)) l2 i
        (by rw [hlen2, hrows_len]; exact hi), hpair]
    · rw [getD_map Prod.snd [] (([] : List ℤ), ([] : List Bool)) l2 i
        (by rw [hlen2, hrows_len]; exact hi), hpair]

/-- A uniform batch whose rows each hold at most one `eos_token` is
processed without error. -/
theorem test_masking_exists (mask_token eos_token pad_token : ℤ)
    (inputs : List (List ℤ)) (L : ℕ) (hne : inputs ≠ [])
    (hL : ∀ s ∈ inputs, s.length = L)
    (h1 : ∀ s ∈ inputs, s.count eos_token ≤ 1) :
    ∃ out, test_masking inputs mask_token eos_token pad_token = some out := by
  rw [test_masking_key mask_token eos_token pad_token inputs L hne hL]
  have henum : List.enum inputs = List.enumFrom 0 inputs := rfl
  have hall : ∀ x ∈ inputs.enum.map (fun p =>
      test_masking_row mask_token eos_token pad_token L p.1 p.2), x ≠ none := by
    intro x hx
    rcases List.mem_map.mp hx with ⟨p, hp, rfl⟩
    rw [henum] at hp
    have hmem : p.2 ∈ inputs := snd_mem_of_mem_enumFrom inputs 0 p hp
    rw [test_masking_row_eq mask_token eos_token pad_token L p.1 p.2 _
      (test_masking_eos_index_eq eos_token p.2 (h1 p.2 hmem))]
    simp
  obtain ⟨l2, hl2⟩ := mapM_id_some _ hall
  exact ⟨_, by rw [hl2]; rfl⟩

/-- C8 counterexample: the claim quantifies over every batch, but on a row
holding two or more `eos_token` occurrences (here `[[1, 1, 5]]` with
eos = 1) the source raises — `(seq == eos_token).nonzero(as_tuple=True)[0]`
is the whole index tensor and `.item()` errors on its two elements — so no
mask indicator with the first-occurrence pattern is produced at all. -/
theorem C8_counterexample :
    test_masking [[1, 1, 5]] 2 1 0 = none := by
  decide

/-- C8 amended: for every uniform batch whose rows each hold at most one
`eos_token` occurrence, `test_masking` succeeds, and the indicator of row
`i` is true exactly at positions strictly below the row's valid length (the
index of its first `eos_token`, or the full length when absent) whose index
modulo 7 is 1 or 2; the pattern depends only on the row's content (both
parity branches of the source are identical), and `test_masking` takes no
mask-rate input at all.  A row with two or more `eos_token` occurrences
instead raises (`.item()` on a multi-element index tensor). -/
theorem C8_test_masking_pattern (mask_token eos_token pad_token : ℤ)
    (inputs : List (List ℤ)) (L i j : ℕ)
    (hL : ∀ s ∈ inputs, s.length = L)
    (h1 : ∀ s ∈ inputs, s.count eos_token ≤ 1)
    (hi : i < inputs.length) (hj : j < L) :
    ∃ out, test_masking inputs mask_token eos_token pad_token = some out ∧
      (((out.2.getD i []).getD j false = true) ↔
        (j < List.indexOf eos_token (inputs.getD i []) ∧ (j % 7 = 1 ∨ j % 7 = 2))) ∧
      (∀ i2, i2 < inputs.length → inputs.getD i2 [] = inputs.getD i [] →
        out.2.getD i2 [] = out.2.getD i []) := by
  have hne : inputs ≠ [] := by intro h; subst h; simp at hi
  obtain ⟨out, hout⟩ :=
    test_masking_exists mask_token eos_token pad_token inputs L hne hL h1
  have hchar :=
    (test_masking_some_getD mask_token eos_token pad_token inputs L i out hL hi hout).2
  refine ⟨out, hout, ?_, ?_⟩
  · rw [hchar, getD_range_map _ _ L j hj]
    simp [Bool.and_eq_true, Bool.or_eq_true, decide_eq_true_eq]
  · intro i2 hi2 hseq
    have hchar2 :=
      (test_masking_some_getD mask_token eos_token pad_token inputs L i2 out hL hi2 hout).2
    rw [hchar, hchar2, hseq]

/-- C8 witness: in the batch `[[5, 10, 11, 1], [6, 20, 21, 1]]`
(eos = 1, pad = 0, mask = 2, one eos per row) the call succeeds and row 0
masks position 1 (index 1 mod 7 = 1, below the first-eos index 3) and not
position 0. -/
theorem C8_test_masking_pattern_witness :
    (test_masking [[5, 10, 11, 1], [6, 20, 21, 1]] 2 1 0).map
      (fun out => ((out.2.getD 0 []).getD 1 false, (out.2.getD 0 []).getD 0 false)) =
      some (true, false) := by
  obtain ⟨out, hout, hiff1, _⟩ := C8_test_masking_pattern 2 1 0
    [[5, 10, 11, 1], [6, 20, 21, 1]] 4 0 1 (by decide) (by decide) (by norm_num) (by norm_num)
  obtain ⟨out2, hout2, hiff0, _⟩ := C8_test_masking_pattern 2 1 0
    [[5, 10, 11, 1], [6, 20, 21, 1]] 4 0 0 (by decide) (by decide) (by norm_num) (by norm_num)
  rw [hout] at hout2
  injection hout2 with he
  subst he
  rw [hout, Option.map_some']
  have h1 : (out.2.getD 0 []).getD 1 false = true := hiff1.mpr (by decide)
  have h0 : (out.2.getD 0 []).getD 0 false = false := by
    by_contra hc
    have htr : (out.2.getD 0 []).getD 0 false = true := by
      revert hc
      cases (out.2.getD 0 []).getD 0 false <;> simp
    have := hiff0.mp htr
    revert this
    decide
  rw [h1, h0]

/-- C1 counterexample: for the batch `[[1, 5]]` (eos = 1, pad = 0,
mask = 2, and the ordinary token 5 disjoint from the special tokens),
`test_masking` returns the all-false indicator but the masked output
`[[1, 0]]` differs from the input at position 1: `test_masking` rebuilds
every row pad-filled, so a non-pad token after the first eos is not
preserved — the claim's "equals the input at every other position" fails
as stated. -/
theorem C1_counterexample :
    test_masking [[1, 5]] 2 1 0 = some ([[1, 0]], [[false, false]]) ∧
    ([[1, 0]] : List (List ℤ)) ≠ [[1, 5]] := by
  constructor
  · decide
  · decide

/-- C1 amended: the claim holds for `BLT_masking` as stated (for batches
whose tokens never equal `mask_token`); for `test_masking` it additionally
requires each sequence to be well formed — no pad/eos before the first
`eos_token` and only pad after it — which the data model guarantees
(`test_masking` raises instead of returning on a row with two or more
`eos_token` occurrences, so its output is described whenever the call
returns).  Then, for both, the indicator is true only at non-pad non-eos
positions, and the masked row holds `mask_token` exactly at indicator
positions and the input token elsewhere. -/
theorem C1_mask_frame :
    (∀ (mask_token eos_token pad_token : ℤ) (rate : ℚ) (rand : List ℚ)
      (inputs m : List ℤ) (w : List Bool),
      (∀ t ∈ inputs, t ≠ mask_token) →
      rand.length = inputs.length →
      BLT_masking_row inputs mask_token eos_token pad_token rate rand = some (m, w) →
      ∀ j, j < inputs.length →
        (w.getD j false = true →
          inputs.getD j 0 ≠ pad_token ∧ inputs.getD j 0 ≠ eos_token) ∧
        m.getD j 0 = (if w.getD j false = true then mask_token else inputs.getD j 0) ∧
        (m.getD j 0 = mask_token ↔ w.getD j false = true)) ∧
    (∀ (mask_token eos_token pad_token : ℤ) (inputs : List (List ℤ)) (L i j : ℕ)
      (out : List (List ℤ) × List (List Bool)),
      (∀ s ∈ inputs, s.length = L) → i < inputs.length → j < L →
      (∀ t ∈ inputs.getD i [], t ≠ mask_token) →
      wellFormedRow eos_token pad_token (inputs.getD i []) →
      test_masking inputs mask_token eos_token pad_token = some out →
      (((out.2.getD i []).getD j false = true →
          (inputs.getD i []).getD j 0 ≠ pad_token ∧
          (inputs.getD i []).getD j 0 ≠ eos_token) ∧
        (out.1.getD i []).getD j 0 =
          (if (out.2.getD i []).getD j false = true
           then mask_token else (inputs.getD i []).getD j 0) ∧
        ((out.1.getD i []).getD j 0 = mask_token ↔
          (out.2.getD i []).getD j false = true))) := by
  constructor
  · intro mask_token eos_token pad_token rate rand inputs m w hm hlen hres j hj
    cases hraw : BLT_cut_off_raw pad_token eos_token rate inputs rand with
    | none =>
      rw [BLT_masking_row, hraw] at hres
      exact absurd hres (by simp)
    | some c0 =>
      rw [BLT_masking_row_eq inputs mask_token eos_token pad_token rate rand c0 hraw] at hres
      simp only [Option.some.injEq, Prod.mk.injEq] at hres
      obtain ⟨hmeq, hweq⟩ := hres
      have hr2len : (BLT_rand2 pad_token eos_token inputs rand).length = inputs.length :=
        length_BLT_rand2 pad_token eos_token inputs rand hlen
      have hwlen : w.length = inputs.length := by
        rw [← hweq, List.length_zipWith, hr2len]
        omega
      have hwval : w.getD j false =
          (maskableB pad_token eos_token (inputs.getD j 0) &&
            decide ((BLT_rand2 pad_token eos_token inputs rand).getD j 0 ≤
              (if c0 = 2 then 1 else c0))) := by
        rw [← hweq]
        exact getD_zipWith _ 0 0 false inputs _ j hj (by omega)
      have hWlen : (List.zipWith (fun t r => maskableB pad_token eos_token t &&
          decide (r ≤ if c0 = 2 then 1 else c0)) inputs
          (BLT_rand2 pad_token eos_token inputs rand)).length = inputs.length := by
        rw [List.length_zipWith, hr2len]
        omega
      have hmval : m.getD j 0 = (if w.getD j false then mask_token else inputs.getD j 0) := by
        rw [← hmeq, ← hweq]
        exact getD_zipWith (fun (b : Bool) (t : ℤ) => if b then mask_token else t)
          false 0 0 _ inputs j (by rw [hWlen]; exact hj) hj
      refine ⟨?_, ?_, ?_⟩
      · intro hw
        rw [hwval] at hw
        have hmask := (Bool.and_eq_true _ _).mp hw |>.1
        unfold maskableB at hmask
        have := (Bool.and_eq_true _ _).mp hmask
        exact ⟨of_decide_eq_true this.1, of_decide_eq_true this.2⟩
      · exact hmval
      · constructor
        · intro hmk
          by_contra hw
          have hwf : w.getD j false = false := by
            revert hw; cases w.getD j false <;> simp
          rw [hmval, hwf] at hmk
          simp only [Bool.false_eq_true, if_false] at hmk
          exact hm _ (getD_mem (by omega) 0) hmk
        · intro hw
          rw [hmval, hw]
          simp
  · intro mask_token eos_token pad_token inputs L i j out hL hi hj hm hwf hres
    have hslen : (inputs.getD i []).length = L := hL _ (getD_mem hi [])
    obtain ⟨hmsk, hind⟩ :=
      test_masking_some_getD mask_token eos_token pad_token inputs L i out hL hi hres
    have hpat : (out.2.getD i []).getD j false =
        (decide (j < List.indexOf eos_token (inputs.getD i [])) &&
          (decide (j % 7 = 1) || decide (j % 7 = 2))) := by
      rw [hind]
      exact getD_range_map _ false L j hj
    have hmval : (out.1.getD i []).getD j 0 =
        (if (decide (j < List.indexOf eos_token (inputs.getD i [])) &&
              (decide (j % 7 = 1) || decide (j % 7 = 2))) = true
         then mask_token
         else if j < List.indexOf eos_token (inputs.getD i []) + 1
         then (inputs.getD i []).getD j pad_token else pad_token) := by
      rw [hmsk]
      exact getD_range_map _ 0 L j hj
    rw [hpat, hmval]
    have hbase : (if j < List.indexOf eos_token (inputs.getD i []) + 1
        then (inputs.getD i []).getD j pad_token else pad_token) =
        (inputs.getD i []).getD j 0 := by
      by_cases hcase : j < List.indexOf eos_token (inputs.getD i []) + 1
      · rw [if_pos hcase]
        exact (getD_irrel (by omega) pad_token 0)
      · rw [if_neg hcase]
        have := ((hwf j (by omega)).2 (by omega)).symm
        exact this
    rw [hbase]
    refine ⟨?_, rfl, ?_⟩
    · intro hpat
      have h1 := (Bool.and_eq_true _ _).mp hpat |>.1
      have hjlt : j < List.indexOf eos_token (inputs.getD i []) := of_decide_eq_true h1
      exact (hwf j (by omega)).1 hjlt
    · constructor
      · intro hmk
        by_contra hpat
        have hpf : (decide (j < List.indexOf eos_token (inputs.getD i [])) &&
            (decide (j % 7 = 1) || decide (j % 7 = 2))) = false := by
          revert hpat; cases (decide (j < List.indexOf eos_token (inputs.getD i [])) &&
            (decide (j % 7 = 1) || decide (j % 7 = 2))) <;> simp
        rw [hpf] at hmk
        simp only [Bool.false_eq_true, if_false] at hmk
        exact hm _ (getD_mem (by omega) 0) hmk
      · intro hpat
        rw [hpat]
        simp

/-- C1 witness: for `BLT_masking` on the row `[10, 11]` with scores
`1/4, 1/8` and rate `1/2`, position 1 is masked, so its token 11 is neither
pad nor eos; for `test_masking` on the well-formed row `[5, 10, 11, 1]`,
the masked output holds the mask token exactly at position 1. -/
theorem C1_mask_frame_witness :
    ((11 : ℤ) ≠ 0 ∧ (11 : ℤ) ≠ 1) ∧
    (test_masking [[5, 10, 11, 1]] 2 1 0).map
      (fun out => (out.1.getD 0 []).getD 1 0) = some 2 := by
  constructor
  · have hml : BLT_mask_lens 0 1 (mkRat 1 2) [10, 11] = 1 := by
      have hl : BLT_lens 0 1 [10, 11] = 2 := by decide
      unfold BLT_mask_lens
      rw [hl]
      norm_num [Rat.mkRat_eq_divInt, Rat.divInt_eq_div]
    have hraw : BLT_cut_off_raw 0 1 (mkRat 1 2) [10, 11] [mkRat 1 4, mkRat 1 8] =
        some (mkRat 1 8) := by
      simp only [BLT_cut_off_raw, hml]
      decide
    have hres : BLT_masking_row [10, 11] 2 1 0 (mkRat 1 2) [mkRat 1 4, mkRat 1 8] =
        some ([10, 2], [false, true]) := by
      rw [BLT_masking_row_eq _ 2 1 0 _ _ _ hraw]
      decide
    exact (C1_mask_frame.1 2 1 0 (mkRat 1 2) [mkRat 1 4, mkRat 1 8] [10, 11] [10, 2]
      [false, true] (by decide) rfl hres 1 (by norm_num)).1 (by decide)
  · have hC : test_masking [[5, 10, 11, 1]] 2 1 0 =
        some ([[5, 2, 2, 1]], [[false, true, true, false]]) := by decide
    have h := (C1_mask_frame.2 2 1 0 [[5, 10, 11, 1]] 4 0 1
      ([[5, 2, 2, 1]], [[false, true, true, false]])
      (by decide) (by norm_num) (by norm_num) (by decide) (by decide) hC).2.1
    rw [hC, Option.map_some']
    rw [h]
    decide

/-! ## Claims about the training-loop control flow -/

/-- C3: during a training pass, a batch whose gradients fail the NaN scan
aborts the epoch at once — no optimizer step, no iteration-counter change,
no exception, control returned to the caller — while a pass whose batches
all scan clean applies one step and one counter increment per batch. -/
theorem C3_nan_guard (iters0 : ℕ) (flags : List Bool) :
    ((∀ b ∈ flags, b = false) →
      run_epoch_train iters0 flags = ⟨iters0 + flags.length, flags.length, false⟩) ∧
    (∀ k, k < flags.length → flags.getD k false = true →
      (∀ j, j < k → flags.getD j false = false) →
      run_epoch_train iters0 flags = ⟨iters0 + k, k, true⟩) := by
  induction flags generalizing iters0 with
  | nil =>
    refine ⟨fun _ => by simp [run_epoch_train], fun k hk => by simp at hk⟩
  | cons b rest ih =>
    constructor
    · intro hall
      have hb : b = false := hall b (List.mem_cons_self b rest)
      have hr := (ih (iters0 + 1)).1 (fun x hx => hall x (List.mem_cons_of_mem b hx))
      simp [run_epoch_train, hb, hr]
      omega
    · intro k hk ht hprev
      cases k with
      | zero =>
        simp only [List.getD_cons_zero] at ht
        simp [run_epoch_train, ht]
      | succ k =>
        have hb : b = false := by
          have := hprev 0 (Nat.succ_pos k)
          simpa using this
        have hr := (ih (iters0 + 1)).2 k (by simpa using hk)
          (by simpa using ht) (fun j hj => by
            have := hprev (j + 1) (by omega)
            simpa using this)
        simp [run_epoch_train, hb, hr]
        omega

/-- C3 witness: with batches `[false, true]` and counter `5`, the pass
stops at the NaN batch after one applied step. -/
theorem C3_nan_guard_witness :
    run_epoch_train 5 [false, true] = ⟨6, 1, true⟩ :=
  (C3_nan_guard 5 [false, true]).2 1 (by decide) (by decide)
    (fun j hj => by
      have hj0 : j = 0 := by omega
      subst hj0; decide)

/-- C5 counterexample: the evaluation-split mask rate ignores the
configuration — with `start_mask_rate = 0`, `end_mask_rate = 1` the first
batch gets rate `0.15`, not `start_mask_rate`; and even under the default
configuration the last batch of a 2-batch pass gets `0.425`, not
`end_mask_rate = 0.7`. -/
theorem C5_counterexample :
    eval_mask_rate ⟨10, 5000, 25000, 0, 1⟩ 0 1 ≠
      (⟨10, 5000, 25000, 0, 1⟩ : TrainerConfig).start_mask_rate ∧
    eval_mask_rate {} (2 - 1) 2 ≠ ({} : TrainerConfig).end_mask_rate := by
  constructor <;> norm_num [eval_mask_rate]

/-- C5 amended: the evaluation-mode mask rate is
`0.15 + (0.7 − 0.15) * min(batch_index / total_batches, 1)` with the
constants `0.15` and `0.7` hardcoded: it does not depend on the configured
`start_mask_rate`/`end_mask_rate`, equals `0.15` at the first batch, is
non-decreasing in the batch index, and at the last batch of an `N`-batch
pass equals `0.15 + 0.55·(N−1)/N`, which is strictly below `0.7`. -/
theorem C5_eval_rate (cfg cfg2 : TrainerConfig) (it it2 total : ℕ) :
    eval_mask_rate cfg it total = eval_mask_rate cfg2 it total ∧
    eval_mask_rate cfg 0 total = 0.15 ∧
    (it ≤ it2 → eval_mask_rate cfg it total ≤ eval_mask_rate cfg it2 total) ∧
    (1 ≤ total → eval_mask_rate cfg (total - 1) total < 0.7) := by
  refine ⟨rfl, by norm_num [eval_mask_rate], ?_, ?_⟩
  · intro h
    have hmono : min ((it : ℚ) / (total : ℚ)) 1 ≤ min ((it2 : ℚ) / (total : ℚ)) 1 := by
      exact min_le_min
        (div_le_div_of_nonneg_right (by exact_mod_cast h) (Nat.cast_nonneg total)) le_rfl
    unfold eval_mask_rate
    nlinarith [hmono]
  · intro h1
    have ht : (0 : ℚ) < (total : ℚ) := by exact_mod_cast h1
    have hc : ((total - 1 : ℕ) : ℚ) = (total : ℚ) - 1 := by
      push_cast [Nat.cast_sub h1]
      ring
    have hlt : ((total : ℚ) - 1) / (total : ℚ) < 1 := by
      rw [div_lt_one ht]; linarith
    unfold eval_mask_rate
    rw [hc, min_eq_left hlt.le]
    nlinarith [hlt]

/-- C5 witness: under the default configuration a 5-batch evaluation pass
starts at rate `0.15` and its batches `1 ≤ 4` are ordered; the last batch
stays below `0.7`. -/
theorem C5_eval_rate_witness :
    eval_mask_rate {} 0 5 = 0.15 ∧
    eval_mask_rate {} 1 5 ≤ eval_mask_rate {} 4 5 ∧
    eval_mask_rate {} (5 - 1) 5 < 0.7 :=
  ⟨(C5_eval_rate {} {} 1 4 5).2.1,
   (C5_eval_rate {} {} 1 4 5).2.2.1 (by norm_num),
   (C5_eval_rate {} {} 1 4 5).2.2.2 (by norm_num)⟩

/-- C6 counterexample: after the operator answers `0` at epoch exhaustion
(`max_epochs = 1`), the loop does not terminate: it runs a second epoch and
prompts again (terminating here only because the next answer is
non-numeric), so two epochs run in total instead of one. -/
theorem C6_counterexample :
    train_loop 0 1 [some 0, none] = (2, true) ∧
    ((2 : ℕ), true) ≠ ((1 : ℕ), true) := by
  constructor
  · rfl
  · decide

/-- C6 amended: at epoch exhaustion a non-numeric operator input terminates
the loop; a positive integer `n` extends `max_epochs` by `n` and resumes
(the next prompt happens `n` epochs later); a non-positive integer does
NOT terminate the loop — `max_epochs` is left unchanged, one further epoch
runs, and the operator is prompted again. -/
theorem C6_continuation (max_epochs : ℕ) (hm : 1 ≤ max_epochs) (n : ℤ) :
    train_loop 0 max_epochs [none] = (max_epochs, true) ∧
    (0 < n → train_loop 0 max_epochs [some n, none] = (max_epochs + n.toNat, true)) ∧
    (n ≤ 0 → train_loop 0 max_epochs [some n, none] = (max_epochs + 1, true)) := by
  have hmax : Nat.max max_epochs 1 = max_epochs := Nat.max_eq_left hm
  refine ⟨?_, ?_, ?_⟩
  · simp [train_loop, hmax]
  · intro hn
    have hpos : 0 < n := hn
    have htn : 1 ≤ n.toNat := by omega
    simp only [train_loop, if_pos hpos]
    have h2 : Nat.max (max_epochs + n.toNat) (Nat.max max_epochs (0 + 1) + 1) =
        max_epochs + n.toNat := by
      rw [hmax]; exact Nat.max_eq_left (by omega)
    simp [hmax, h2]
    omega
  · intro hn
    have hneg : ¬ 0 < n := by omega
    simp only [train_loop, if_neg hneg]
    have h2 : Nat.max max_epochs (Nat.max max_epochs (0 + 1) + 1) =
        max_epochs + 1 := by
      rw [hmax]; exact Nat.max_eq_right (by omega)
    simp [hmax, h2]

/-- C6 witness: with `max_epochs = 2`, input `"3"` resumes and extends the
horizon by 3 (five epochs run before the final non-numeric input ends the
loop), while input `"0"` runs one further epoch instead of stopping. -/
theorem C6_continuation_witness :
    train_loop 0 2 [some 3, none] = (5, true) ∧
    train_loop 0 2 [some 0, none] = (3, true) :=
  ⟨(C6_continuation 2 (by norm_num) 3).2.1 (by norm_num),
   (C6_continuation 2 (by norm_num) 0).2.2 (by norm_num)⟩

/-- C7: the claim matches the intent recorded in the code's own comment
("just save always if no test set is provided"), but when no evaluation
set is configured the `good_model` branch reads the never-assigned local
`test_loss` (`best_loss = test_loss`) and raises `UnboundLocalError`
instead of updating the best checkpoint; with an evaluation set configured
the best checkpoint is overwritten exactly when the new loss is strictly
below the best loss so far. -/
theorem C7_epoch_end :
    epoch_end true false none 0 = Except.error "UnboundLocalError" ∧
    (∀ l b : ℚ, epoch_end true true (some l) b =
      if l < b then Except.ok ⟨l, true, true⟩ else Except.ok ⟨b, true, false⟩) := by
  refine ⟨rfl, fun l b => ?_⟩
  by_cases h : l < b <;> simp [epoch_end, h]

/-- C4: the learning-rate multiplier is the claimed piecewise function
(linear warmup ramp, then cosine decay of the clamped progress with a 0.1
floor), with `multiplier(0) = 0`, `multiplier(warmup_iters) = 1`,
`multiplier(final_iters) = 0.1`, and `multiplier ≥ 0.1` beyond the warmup
phase, for every configuration with `0 < warmup_iters < final_iters`. -/
theorem C4_lr_schedule (warmup_iters final_iters : ℕ)
    (h0 : 0 < warmup_iters) (hwf : warmup_iters < final_iters) :
    (∀ iters, lr_mult warmup_iters final_iters iters =
      lr_mult_spec warmup_iters final_iters iters) ∧
    lr_mult warmup_iters final_iters 0 = 0 ∧
    lr_mult warmup_iters final_iters warmup_iters = 1 ∧
    lr_mult warmup_iters final_iters final_iters = 0.1 ∧
    (∀ iters, warmup_iters < iters → 0.1 ≤ lr_mult warmup_iters final_iters iters) := by
  refine ⟨?_, ?_, ?_, ?_, ?_⟩
  · intro iters
    by_cases h : iters < warmup_iters
    · simp only [lr_mult, lr_mult_spec, if_pos h]
      norm_cast
    · simp only [lr_mult, lr_mult_spec, if_neg h]
      have hwi : (warmup_iters : ℝ) ≤ (iters : ℝ) := by
        exact_mod_cast not_lt.mp h
      have hden : (0:ℝ) < max 1 ((final_iters:ℝ) - (warmup_iters:ℝ)) :=
        lt_of_lt_of_le one_pos (le_max_left _ _)
      have hB : (0:ℝ) ≤ ((iters:ℝ) - (warmup_iters:ℝ)) /
          max 1 ((final_iters:ℝ) - (warmup_iters:ℝ)) :=
        div_nonneg (by linarith) hden.le
      have hmax : max 0 (min 1 (((iters:ℝ) - (warmup_iters:ℝ)) /
          max 1 ((final_iters:ℝ) - (warmup_iters:ℝ)))) =
          min 1 (((iters:ℝ) - (warmup_iters:ℝ)) /
          max 1 ((final_iters:ℝ) - (warmup_iters:ℝ))) :=
        max_eq_right (le_min (by norm_num) hB)
      rw [hmax]
      push_cast
      ring_nf
  · simp [lr_mult, h0]
  · simp only [lr_mult, if_neg (lt_irrefl warmup_iters)]
    rw [sub_self]
    norm_num [Real.cos_zero]
  · have hnlt : ¬ final_iters < warmup_iters := by omega
    simp only [lr_mult, if_neg hnlt]
    have hD : (1:ℤ) ≤ (final_iters : ℤ) - (warmup_iters : ℤ) := by omega
    rw [max_eq_right hD]
    have hDne : (((final_iters : ℤ) - (warmup_iters : ℤ) : ℤ) : ℝ) ≠ 0 := by
      have : (0:ℤ) < (final_iters : ℤ) - (warmup_iters : ℤ) := by omega
      exact_mod_cast this.ne.symm
    rw [div_self hDne]
    norm_num [Real.cos_pi]
  · intro iters hi
    have hnlt : ¬ iters < warmup_iters := by omega
    simp only [lr_mult, if_neg hnlt]
    exact le_max_left _ _

/-- C4 witness: with `warmup_iters = 1`, `final_iters = 2` the multiplier is
`0` at iteration 0, `1` at iteration 1, `0.1` at iteration 2, and at least
`0.1` at iteration 5. -/
theorem C4_lr_schedule_witness :
    lr_mult 1 2 0 = 0 ∧ lr_mult 1 2 1 = 1 ∧ lr_mult 1 2 2 = 0.1 ∧
    0.1 ≤ lr_mult 1 2 5 :=
  ⟨(C4_lr_schedule 1 2 (by norm_num) (by norm_num)).2.1,
   (C4_lr_schedule 1 2 (by norm_num) (by norm_num)).2.2.1,
   (C4_lr_schedule 1 2 (by norm_num) (by norm_num)).2.2.2.1,
   (C4_lr_schedule 1 2 (by norm_num) (by norm_num)).2.2.2.2 5 (by norm_num)⟩

/-- C9 counterexample: a non-training `BLT_masking` call made while the
global generator has already produced 3 values (state `⟨5, 3⟩`) leaves the
generator at the start of seed 5's stream (`⟨5, 0⟩`), so subsequent random
values repeat the beginning of the stream instead of continuing where the
caller left off — not what the caller would have observed without the
call. -/
theorem C9_counterexample :
    BLT_masking_rng false 28 ⟨5, 3⟩ = ⟨5, 0⟩ ∧ (⟨5, 0⟩ : TorchRNG) ≠ ⟨5, 3⟩ := by
  constructor
  · rfl
  · decide

/-- C9 amended: a non-training `BLT_masking` call saves only the seed
(`torch.initial_seed`), not the generator state; on return the generator is
reseeded with the saved seed, i.e. reset to position 0 of that seed's
stream.  The caller's stream is unaffected exactly when the generator was
still at position 0 when the call was made. -/
theorem C9_rng_restore (n : ℕ) (g : TorchRNG) :
    BLT_masking_rng false n g = ⟨g.seed, 0⟩ ∧
    (g.offset = 0 → BLT_masking_rng false n g = g) := by
  refine ⟨rfl, fun h => ?_⟩
  cases g with
  | mk s o =>
    simp only at h
    subst h
    rfl

/-- C9 witness: for a fresh generator (offset 0, seed 7) the call leaves
the state unchanged. -/
theorem C9_rng_restore_witness :
    BLT_masking_rng false 4 ⟨7, 0⟩ = ⟨7, 0⟩ :=
  (C9_rng_restore 4 ⟨7, 0⟩).2 rfl

end BLTTrainer
